import Mathlib

/-!
Verification development for the row-wise fitting, cube assembly and aperture
assignment core of `brian.py`.

Modelling conventions used throughout:
* IEEE floats are embedded as `Option ℚ` (or `ℝ` where irrational constants
  such as `sqrt (2 * pi)` are required): `none` models NaN, `some q` a finite
  numeric value.  Arithmetic on `Option ℚ` propagates `none` exactly as NaN
  propagates through `*` and `-`, and every ordered comparison against a NaN
  is false, as in IEEE semantics.
* numpy arrays indexed `[wavelength, y, x]` become functions from indices;
  a cube column is a function of the remaining indices.
* the per-row checkpoint pickle files become a map `row index → Option result`;
  `none` means the artifact does not exist.
-/

namespace Brian

/-- NaN-propagating product of two embedded float samples
(`data[:,i,row] * good_spaxels[i]` in the source). -/
def oMul : Option ℚ → Option ℚ → Option ℚ
  | some a, some b => some (a * b)
  | _, _ => none

/-- NaN-propagating difference of two embedded float samples
(`data[...] -= cont[...]` in the source). -/
def oSub : Option ℚ → Option ℚ → Option ℚ
  | some a, some b => some (a - b)
  | _, _ => none

/-- `v < t` with IEEE semantics: any comparison against NaN is false
(`snr_cont[:,row] < params[method+'_snr_min']` in the source). -/
def nanLt : Option ℚ → ℚ → Bool
  | some v, t => decide (v < t)
  | none, _ => false

/-- `v >= t` with IEEE semantics: any comparison against NaN is false
(`snr_cont[:,row] >= params[method+'_snr_max']` in the source). -/
def nanGe : Option ℚ → ℚ → Bool
  | some v, t => decide (t ≤ v)
  | none, _ => false

/-! ### Continuum-stage SNR gate (`run_fit_continuum`, lines 195-204)

The source initialises `good_spaxels = np.ones(NAXIS2)`, then sets entries to
NaN when `params[method+'_snr_min']` is truthy and the spaxel's continuum SNR
is `<` the minimum, or when `params[method+'_snr_max']` is truthy and the SNR
is `>=` the maximum.  A Python float is truthy iff it is nonzero, embedded
here as `≠ 0`.  Finally `specs = [data[:,i,row] * good_spaxels[i] for i in
range(NAXIS2)]`. -/

/-- `good_spaxels[i]`: `some 1` for a spaxel that passes the gate, `none`
(NaN) for a masked one. -/
def goodSpaxel (snr : Option ℚ) (snrMin snrMax : ℚ) : Option ℚ :=
  if (snrMin ≠ 0 ∧ nanLt snr snrMin = true) ∨ (snrMax ≠ 0 ∧ nanGe snr snrMax = true)
  then none else some 1

/-- The list of per-spaxel inputs handed to the fit strategy for one row:
one spectrum per spaxel index `i < ny`, each sample multiplied by
`good_spaxels[i]`.  `data` is indexed `(sample, spaxel)`. -/
def buildSpecs (data : ℕ → ℕ → Option ℚ) (snrCol : ℕ → Option ℚ)
    (snrMin snrMax : ℚ) (ny : ℕ) : List (ℕ → Option ℚ) :=
  (List.range ny).map (fun i => fun s => oMul (data s i) (goodSpaxel (snrCol i) snrMin snrMax))

theorem oMul_none_right (x : Option ℚ) : oMul x none = none := by
  cases x <;> rfl

theorem oMul_one_right (x : Option ℚ) : oMul x (some 1) = x := by
  cases x with
  | none => rfl
  | some a => simp [oMul]

theorem buildSpecs_length (data : ℕ → ℕ → Option ℚ) (snrCol : ℕ → Option ℚ)
    (snrMin snrMax : ℚ) (ny : ℕ) : (buildSpecs data snrCol snrMin snrMax ny).length = ny := by
  simp [buildSpecs]

theorem buildSpecs_get (data : ℕ → ℕ → Option ℚ) (snrCol : ℕ → Option ℚ)
    (snrMin snrMax : ℚ) (ny i : ℕ) (hi : i < ny) :
    (buildSpecs data snrCol snrMin snrMax ny)[i]? =
      some (fun s => oMul (data s i) (goodSpaxel (snrCol i) snrMin snrMax)) := by
  simp [buildSpecs, List.getElem?_map, List.getElem?_range hi]

/-- C9: in the continuum fitting stage, a spaxel whose continuum SNR is
excluded by the configured (truthy) min/max thresholds is handed to the fit
strategy as an all-NaN spectrum instead of being skipped, and the row's input
sequence has exactly one entry per spaxel, in positional order. -/
theorem snr_mask_invalid_input (data : ℕ → ℕ → Option ℚ) (snrCol : ℕ → Option ℚ)
    (snrMin snrMax : ℚ) (ny i : ℕ) (hi : i < ny)
    (hex : (snrMin ≠ 0 ∧ nanLt (snrCol i) snrMin = true) ∨
           (snrMax ≠ 0 ∧ nanGe (snrCol i) snrMax = true)) :
    (buildSpecs data snrCol snrMin snrMax ny).length = ny ∧
    ∃ f, (buildSpecs data snrCol snrMin snrMax ny)[i]? = some f ∧ ∀ s, f s = none := by
  refine ⟨buildSpecs_length _ _ _ _ _, ⟨_, buildSpecs_get data snrCol snrMin snrMax ny i hi, ?_⟩⟩
  intro s
  have hg : goodSpaxel (snrCol i) snrMin snrMax = none := by
    simp only [goodSpaxel, if_pos hex]
  rw [hg, oMul_none_right]

theorem snr_mask_invalid_input_w :
    (0 : ℕ) < 1 ∧
    ((3 : ℚ) ≠ 0 ∧ nanLt (some 1) 3 = true) ∧
    ((buildSpecs (fun _ _ => some 7) (fun _ => some 1) 3 0 1).length = 1 ∧
     ∃ f, (buildSpecs (fun _ _ => some 7) (fun _ => some 1) 3 0 1)[0]? = some f ∧
       ∀ s, f s = none) := by
  refine ⟨by decide, ⟨by norm_num, by decide⟩, ?_⟩
  exact snr_mask_invalid_input (fun _ _ => some 7) (fun _ => some 1) 3 0 1 0 (by decide)
    (Or.inl ⟨by norm_num, by decide⟩)

/-- C10: the continuum-stage gate masks a spaxel iff (the minimum threshold is
truthy and SNR is strictly below it) or (the maximum threshold is truthy and
SNR is at or above it); a spaxel with NaN continuum SNR is never masked and
its raw spectrum reaches the fit strategy unmodified; a threshold configured
as `0` (falsy) disables that bound. -/
theorem snr_gate_characterization (data : ℕ → ℕ → Option ℚ) (snrCol : ℕ → Option ℚ)
    (snrMin snrMax : ℚ) (ny i : ℕ) (hi : i < ny) :
    (goodSpaxel (snrCol i) snrMin snrMax = none ↔
      ((snrMin ≠ 0 ∧ nanLt (snrCol i) snrMin = true) ∨
       (snrMax ≠ 0 ∧ nanGe (snrCol i) snrMax = true))) ∧
    (snrCol i = none →
      ∃ f, (buildSpecs data snrCol snrMin snrMax ny)[i]? = some f ∧ ∀ s, f s = data s i) ∧
    (snrMin = 0 →
      (goodSpaxel (snrCol i) snrMin snrMax = none ↔
        (snrMax ≠ 0 ∧ nanGe (snrCol i) snrMax = true))) := by
  refine ⟨?_, ?_, ?_⟩
  · constructor
    · intro h
      by_contra hc
      simp only [goodSpaxel, if_neg hc] at h
      exact Option.noConfusion h
    · intro h
      simp only [goodSpaxel, if_pos h]
  · intro hnan
    refine ⟨_, buildSpecs_get data snrCol snrMin snrMax ny i hi, ?_⟩
    intro s
    have hg : goodSpaxel (snrCol i) snrMin snrMax = some 1 := by
      simp only [goodSpaxel, hnan]
      rw [if_neg]
      rintro (⟨_, hlt⟩ | ⟨_, hge⟩)
      · exact absurd hlt (by simp [nanLt])
      · exact absurd hge (by simp [nanGe])
    rw [hg, oMul_one_right]
  · intro h0
    subst h0
    constructor
    · intro h
      by_contra hc
      have : ¬ (((0 : ℚ) ≠ 0 ∧ nanLt (snrCol i) 0 = true) ∨
          (snrMax ≠ 0 ∧ nanGe (snrCol i) snrMax = true)) := by
        rintro (⟨hne, _⟩ | hr)
        · exact hne rfl
        · exact hc hr
      simp only [goodSpaxel, if_neg this] at h
      exact Option.noConfusion h
    · intro h
      simp only [goodSpaxel, if_pos (Or.inr h)]

theorem snr_gate_characterization_w :
    (0 : ℕ) < 1 ∧
    ((goodSpaxel ((fun _ => (none : Option ℚ)) 0) 3 5 = none ↔
      (((3 : ℚ) ≠ 0 ∧ nanLt ((fun _ => (none : Option ℚ)) 0) 3 = true) ∨
       ((5 : ℚ) ≠ 0 ∧ nanGe ((fun _ => (none : Option ℚ)) 0) 5 = true))) ∧
     ((fun _ => (none : Option ℚ)) 0 = none →
       ∃ f, (buildSpecs (fun _ _ => some 7) (fun _ => none) 3 5 1)[0]? = some f ∧
         ∀ s, f s = (fun _ _ => some (7:ℚ)) s 0) ∧
     ((3 : ℚ) = 0 →
       (goodSpaxel ((fun _ => (none : Option ℚ)) 0) 3 5 = none ↔
         ((5 : ℚ) ≠ 0 ∧ nanGe ((fun _ => (none : Option ℚ)) 0) 5 = true)))) :=
  ⟨by decide, snr_gate_characterization (fun _ _ => some 7) (fun _ => none) 3 5 1 0 (by decide)⟩

/-! ### Emission-line cube assembly: invalid-fit handling
(`run_make_elines_cube`, lines 550-566)

One pickled row is a list of mpfit result objects, each with a parameter
vector `params`, an error vector `perror` and an integer `status`.  The
source replaces the whole parameter slot of any result whose status is not
in `[1,2,3,4]` by a NaN vector shaped like the first result's parameters
(`np.zeros_like(ps[0])*np.nan`), squares the errors of converged results
(`errs[j]**2`, storing the variance), and records every status in the status
map. -/

structure MpfitRes where
  params : List ℚ
  perror : List ℚ
  status : ℤ
  deriving DecidableEq

/-- The mpfit converged-status set used by the source (`[1,2,3,4]`). -/
def statusConverged : List ℤ := [1, 2, 3, 4]

/-- Shape of the NaN replacement vector: the length of the first result's
parameter vector (`np.zeros_like(ps[0])`). -/
def mpfitShape (ms : List MpfitRes) : ℕ :=
  match ms with
  | [] => 0
  | m :: _ => m.params.length

/-- `ps` after the clean-up comprehension on line 556. -/
def cleanPs (ms : List MpfitRes) : List (List (Option ℚ)) :=
  ms.map (fun item =>
    if item.status ∈ statusConverged then item.params.map some
    else List.replicate (mpfitShape ms) none)

/-- `errs` after the clean-up comprehension on line 559: converged errors are
squared (variance), the rest become NaN vectors. -/
def cleanErrs (ms : List MpfitRes) : List (List (Option ℚ)) :=
  ms.map (fun item =>
    if item.status ∈ statusConverged then item.perror.map (fun e => some (e ^ 2))
    else List.replicate (mpfitShape ms) none)

/-- The per-spaxel status row stored into `elines_fit_status` (line 566). -/
def statusRow (ms : List MpfitRes) : List ℤ :=
  ms.map (fun item => item.status)

/-- C3: during emission-line cube assembly, a spaxel whose fit status is not
in the converged set `{1,2,3,4}` gets every parameter and error slot set to
NaN (never zero) while its numeric status is still recorded; a converged
spaxel keeps its fitted parameters, with its errors stored squared as
variances. -/
theorem invalid_fit_propagation (ms : List MpfitRes) (j : ℕ) (m : MpfitRes)
    (hm : ms[j]? = some m) :
    (statusRow ms)[j]? = some m.status ∧
    (m.status ∉ statusConverged →
      (cleanPs ms)[j]? = some (List.replicate (mpfitShape ms) none) ∧
      (cleanErrs ms)[j]? = some (List.replicate (mpfitShape ms) none) ∧
      ∀ v ∈ List.replicate (mpfitShape ms) (none : Option ℚ), v ≠ some 0) ∧
    (m.status ∈ statusConverged →
      (cleanPs ms)[j]? = some (m.params.map some) ∧
      (cleanErrs ms)[j]? = some (m.perror.map (fun e => some (e ^ 2)))) := by
  refine ⟨?_, ?_, ?_⟩
  · simp [statusRow, List.getElem?_map, hm]
  · intro hbad
    refine ⟨?_, ?_, ?_⟩
    · simp [cleanPs, List.getElem?_map, hm, if_neg hbad]
    · simp [cleanErrs, List.getElem?_map, hm, if_neg hbad]
    · intro v hv
      have : v = none := List.eq_of_mem_replicate hv
      subst this
      exact fun h => Option.noConfusion h
  · intro hgood
    constructor
    · simp [cleanPs, List.getElem?_map, hm, if_pos hgood]
    · simp [cleanErrs, List.getElem?_map, hm, if_pos hgood]

/-- A concrete two-spaxel row with one failed fit (mpfit status 5) and one
converged fit (status 1), for the C3 witness. -/
def msC3 : List MpfitRes := [⟨[1, 2], [3, 4], 5⟩, ⟨[6, 7], [8, 9], 1⟩]

theorem invalid_fit_propagation_w :
    msC3[0]? = some ⟨[1, 2], [3, 4], 5⟩ ∧
    ((statusRow msC3)[0]? = some (MpfitRes.mk [1, 2] [3, 4] 5).status ∧
     ((MpfitRes.mk [1, 2] [3, 4] 5).status ∉ statusConverged →
       (cleanPs msC3)[0]? = some (List.replicate (mpfitShape msC3) none) ∧
       (cleanErrs msC3)[0]? = some (List.replicate (mpfitShape msC3) none) ∧
       ∀ v ∈ List.replicate (mpfitShape msC3) (none : Option ℚ), v ≠ some 0) ∧
     ((MpfitRes.mk [1, 2] [3, 4] 5).status ∈ statusConverged →
       (cleanPs msC3)[0]? = some ((MpfitRes.mk [1, 2] [3, 4] 5).params.map some) ∧
       (cleanErrs msC3)[0]? =
         some ((MpfitRes.mk [1, 2] [3, 4] 5).perror.map (fun e => some (e ^ 2))))) :=
  ⟨by decide, invalid_fit_propagation msC3 0 ⟨[1, 2], [3, 4], 5⟩ (by decide)⟩

/-! ### Row-wise checkpointed fitting and cube assembly
(`run_fit_continuum` lines 170-255, `run_make_continuum_cube` lines 286-306,
`run_fit_elines` lines 403-488)

The per-row fit is deterministic in the row index once the cube, SNR maps
and configuration are fixed, so it is embedded as an opaque pure function
`fitRow : ℕ → ρ`.  A checkpoint store is `ℕ → Option ρ`; the pickle filename
is injective in the row index (`str(int(row)).zfill(4)`), so writing row `r`
is a pointwise update at key `r`.  The source loops
`for row in np.linspace(start_row, end_row, end_row-start_row+1)`, i.e. over
the integers `start_row, ..., end_row` inclusive, embedded as a fold over
`List.range' start count`. -/

/-- Serialize one row's results under its unique artifact name
(`pickle.dump(conts, file)` into `..._row_XXXX.pkl`). -/
def writeRow {ρ : Type} (st : ℕ → Option ρ) (r : ℕ) (v : ρ) : ℕ → Option ρ :=
  fun x => if x = r then some v else st x

/-- One fitting run over the given rows: fit each row in order and checkpoint
it (the row loop of `run_fit_continuum` / `run_fit_elines`). -/
def runFitRows {ρ : Type} (fitRow : ℕ → ρ) (rows : List ℕ) (st : ℕ → Option ρ) :
    ℕ → Option ρ :=
  rows.foldl (fun m r => writeRow m r (fitRow r)) st

/-- Cube assembly (`run_make_continuum_cube` / `run_make_elines_cube` row
loop): scan rows `0, ..., nrows-1`; a row with an artifact contributes its
column, a row without one is skipped and its column stays NaN (`none`). -/
def assembleCube {ρ : Type} (st : ℕ → Option ρ) (nrows : ℕ) : List (Option ρ) :=
  (List.range nrows).map st

theorem runFitRows_apply {ρ : Type} (fitRow : ℕ → ρ) (rows : List ℕ)
    (st : ℕ → Option ρ) (x : ℕ) :
    runFitRows fitRow rows st x = if x ∈ rows then some (fitRow x) else st x := by
  induction rows generalizing st with
  | nil => simp [runFitRows]
  | cons r rest ih =>
    show runFitRows fitRow rest (writeRow st r (fitRow r)) x = _
    rw [ih]
    by_cases hx : x ∈ rest
    · simp [hx]
    · by_cases hr : x = r
      · subst hr
        simp [hx, writeRow]
      · simp [hx, hr, writeRow]

/-- C2: for every `k < nrows`, fitting rows `[0,k)`, then resuming with
`start_row = k` over `[k,nrows)`, then assembling, yields the same cube as
assembling after one uninterrupted run over `[0,nrows)`; and any row with no
checkpoint artifact is skipped during assembly, its column staying NaN. -/
theorem resume_equivalence {ρ : Type} (fitRow : ℕ → ρ) (init : ℕ → Option ρ)
    (nrows k : ℕ) (hk : k < nrows) :
    assembleCube
        (runFitRows fitRow (List.range' k (nrows - k))
          (runFitRows fitRow (List.range' 0 k) init)) nrows =
      assembleCube (runFitRows fitRow (List.range' 0 nrows) init) nrows ∧
    ∀ st : ℕ → Option ρ, ∀ r, r < nrows → st r = none →
      (assembleCube st nrows)[r]? = some none := by
  constructor
  · apply List.map_congr_left
    intro r hr
    rw [List.mem_range] at hr
    rw [runFitRows_apply, runFitRows_apply, runFitRows_apply]
    by_cases h2 : r ∈ List.range' k (nrows - k)
    · simp [h2, List.mem_range'_1, hr]
    · rw [List.mem_range'_1] at h2
      push_neg at h2
      have hrk : r < k := by
        by_contra hge
        push_neg at hge
        omega
      simp [List.mem_range'_1, hrk, hr]
  · intro st r hr hnone
    simp [assembleCube, List.getElem?_map, List.getElem?_range hr, hnone]

theorem resume_equivalence_w :
    (1 : ℕ) < 3 ∧
    assembleCube
        (runFitRows (fun r => r) (List.range' 1 (3 - 1))
          (runFitRows (fun r => r) (List.range' 0 1) (fun _ => none))) 3 =
      assembleCube (runFitRows (fun r => r) (List.range' 0 3) (fun _ => none)) 3 :=
  ⟨by decide, (resume_equivalence (fun r => r) (fun _ => none) 3 1 (by decide)).1⟩

/-! ### Interrupt semantics of the row loop
(`run_fit_continuum` lines 226-236, `run_fit_elines` lines 453-463)

If a `KeyboardInterrupt` arrives during `pool.map` for a row, the source
closes and joins the pool and calls
`sys.exit('... interrupted at row %i' % row)`; the pickle for the in-flight
row is written only after a successful `pool.map`, so it is never created.
Whether the user cancels while a given row is dispatched is an external
event, embedded as a predicate `intr : ℕ → Bool` on row indices; the pool
clean-up is recorded in the fatal outcome as two flags mirroring
`pool.close()` and `pool.join()` running before `sys.exit`. -/

inductive RunOutcome where
  | completed : RunOutcome
  | fatal : ℕ → Bool → Bool → RunOutcome
  deriving DecidableEq

/-- The row loop with user cancellation: rows are processed in order; the
first row whose dispatch is interrupted triggers pool close, pool join and a
fatal exit naming that row, and no artifact is written for it. -/
def runRowsInt {ρ : Type} (fitRow : ℕ → ρ) (intr : ℕ → Bool) :
    List ℕ → (ℕ → Option ρ) → (ℕ → Option ρ) × RunOutcome
  | [], st => (st, RunOutcome.completed)
  | r :: rest, st =>
    if intr r then (st, RunOutcome.fatal r true true)
    else runRowsInt fitRow intr rest (writeRow st r (fitRow r))

/-- C6: if the user cancels while row `s+m` of the range `[s, s+n)` is
dispatched (all earlier rows uninterrupted), the run aborts fatally with the
pool closed and joined and the interrupted row reported, the checkpoint
store is exactly that of a clean run over the earlier rows `[s, s+m)` -- so
every earlier artifact is intact and usable as a restart point -- and no
artifact exists for the in-flight row. -/
theorem interrupt_row_semantics {ρ : Type} (fitRow : ℕ → ρ) (intr : ℕ → Bool)
    (s n m : ℕ) (st : ℕ → Option ρ) (hm : m < n)
    (hpre : ∀ j, j < m → intr (s + j) = false) (hr : intr (s + m) = true) :
    runRowsInt fitRow intr (List.range' s n) st =
      (runFitRows fitRow (List.range' s m) st, RunOutcome.fatal (s + m) true true) ∧
    (runRowsInt fitRow intr (List.range' s n) st).1 (s + m) = st (s + m) := by
  have main : runRowsInt fitRow intr (List.range' s n) st =
      (runFitRows fitRow (List.range' s m) st, RunOutcome.fatal (s + m) true true) := by
    induction m generalizing s n st with
    | zero =>
      obtain ⟨n', rfl⟩ : ∃ n', n = n' + 1 := ⟨n - 1, by omega⟩
      show runRowsInt fitRow intr (s :: List.range' (s + 1) n') st = _
      rw [show s + 0 = s from rfl] at hr
      simp [runRowsInt, hr, runFitRows]
    | succ m' ih =>
      obtain ⟨n', rfl⟩ : ∃ n', n = n' + 1 := ⟨n - 1, by omega⟩
      show runRowsInt fitRow intr (s :: List.range' (s + 1) n') st = _
      have h0 : intr s = false := by
        have := hpre 0 (Nat.succ_pos m')
        simpa using this
      rw [runRowsInt, if_neg (by rw [h0]; exact Bool.false_ne_true)]
      have hpre' : ∀ j, j < m' → intr (s + 1 + j) = false := by
        intro j hj
        have := hpre (j + 1) (by omega)
        rwa [show s + (j + 1) = s + 1 + j by omega] at this
      have hr' : intr (s + 1 + m') = true := by
        rwa [show s + 1 + m' = s + (m' + 1) by omega]
      have := ih (s + 1) n' (writeRow st s (fitRow s)) (by omega) hpre' hr'
      rw [this]
      have harr : s + 1 + m' = s + (m' + 1) := by omega
      rw [harr]
      rfl
  refine ⟨main, ?_⟩
  rw [main]
  show runFitRows fitRow (List.range' s m) st (s + m) = st (s + m)
  rw [runFitRows_apply]
  rw [if_neg]
  rw [List.mem_range'_1]
  omega

theorem interrupt_row_semantics_w :
    (2 : ℕ) < 4 ∧
    runRowsInt (fun r => r) (fun r => decide (r = 2)) (List.range' 0 4) (fun _ => none) =
      (runFitRows (fun r => r) (List.range' 0 2) (fun _ => none),
        RunOutcome.fatal (0 + 2) true true) :=
  ⟨by decide,
    (interrupt_row_semantics (fun r => r) (fun r => decide (r = 2)) 0 4 2 (fun _ => none)
      (by decide) (fun j hj => by interval_cases j <;> decide) (by decide)).1⟩

/-! ### Line-flux derivation during emission-line cube assembly
(`run_make_elines_cube`, lines 577-594)

For each configured line block `k` the source computes

  `zlams = cube[6k] * (1 + cube[6k+2]/c)`
  `zlams_err = cube[6k]**2 * err[6k+2]/c**2`
  `sigma_obs_A = brian_elf.obs_sigma(cube[6k+3], zlams, inst, in_errs=[err[6k+2], zlams_err, 0])`
  `cube[6k] = sqrt(2*pi) * cube[6k+1] * sigma_obs_A[0]`
  `err[6k] = 2*pi * (err[6k+1]**2 * sigma_obs_A[0] + sigma_obs_A[1] * cube[6k+1]**2)`

`brian_elf.obs_sigma` lives in a collaborator module outside the core, so it
is embedded as an opaque function `obs` returning the pair
(observed sigma, its variance).  The derivation is per spaxel and the claims
quantify over spaxels with numeric parameters, so one spaxel's slot vectors
are embedded as `ℕ → ℝ` (a NaN-free spaxel).  The loop over `k` runs over
`List.range nlines`. -/

/-- `zlams` of line block `k` (the redshifted reference wavelength). -/
noncomputable def zlamOf (c : ℝ) (cube : ℕ → ℝ) (k : ℕ) : ℝ :=
  cube (6 * k) * (1 + cube (6 * k + 2) / c)

/-- `zlams_err` of line block `k`. -/
noncomputable def zlamErrOf (c : ℝ) (cube err : ℕ → ℝ) (k : ℕ) : ℝ :=
  (cube (6 * k)) ^ 2 * err (6 * k + 2) / c ^ 2

/-- `sigma_obs_A` of line block `k`: the collaborator call
`brian_elf.obs_sigma(cube[6k+3], zlams, inst=..., in_errs=[err[6k+2], zlams_err, 0])`,
with `obs` the opaque collaborator function. -/
noncomputable def sigObsOf (obs : ℝ → ℝ → List ℝ → ℝ × ℝ) (c : ℝ)
    (cube err : ℕ → ℝ) (k : ℕ) : ℝ × ℝ :=
  obs (cube (6 * k + 3)) (zlamOf c cube k) [err (6 * k + 2), zlamErrOf c cube err k, 0]

/-- One iteration of the derivation loop: overwrite parameter slot `6k` with
the line flux and error slot `6k` with its propagated value. -/
noncomputable def deriveStep (obs : ℝ → ℝ → List ℝ → ℝ × ℝ) (c : ℝ)
    (st : (ℕ → ℝ) × (ℕ → ℝ)) (k : ℕ) : (ℕ → ℝ) × (ℕ → ℝ) :=
  (fun x => if x = 6 * k then
      Real.sqrt (2 * Real.pi) * st.1 (6 * k + 1) * (sigObsOf obs c st.1 st.2 k).1
    else st.1 x,
   fun x => if x = 6 * k then
      2 * Real.pi * ((st.2 (6 * k + 1)) ^ 2 * (sigObsOf obs c st.1 st.2 k).1 +
        (sigObsOf obs c st.1 st.2 k).2 * (st.1 (6 * k + 1)) ^ 2)
    else st.2 x)

/-- The full derivation loop over all configured line blocks
(`for (k,key) in enumerate(params['elines'].keys())`). -/
noncomputable def deriveAll (obs : ℝ → ℝ → List ℝ → ℝ × ℝ) (c : ℝ) (nlines : ℕ)
    (st : (ℕ → ℝ) × (ℕ → ℝ)) : (ℕ → ℝ) × (ℕ → ℝ) :=
  (List.range nlines).foldl (deriveStep obs c) st

theorem deriveFold_untouched (obs : ℝ → ℝ → List ℝ → ℝ × ℝ) (c : ℝ) (ls : List ℕ)
    (st : (ℕ → ℝ) × (ℕ → ℝ)) (y : ℕ) (hy : ∀ k ∈ ls, y ≠ 6 * k) :
    (ls.foldl (deriveStep obs c) st).1 y = st.1 y ∧
    (ls.foldl (deriveStep obs c) st).2 y = st.2 y := by
  induction ls generalizing st with
  | nil => exact ⟨rfl, rfl⟩
  | cons k rest ih =>
    have hk : y ≠ 6 * k := hy k (List.mem_cons_self k rest)
    have hrest : ∀ k' ∈ rest, y ≠ 6 * k' := fun k' h => hy k' (List.mem_cons_of_mem k h)
    have := ih (deriveStep obs c st k) hrest
    rw [List.foldl_cons]
    refine ⟨?_, ?_⟩
    · rw [this.1]
      simp [deriveStep, if_neg hk]
    · rw [this.2]
      simp [deriveStep, if_neg hk]

theorem block_slot_ne_writer (k k' j : ℕ) (hj1 : 1 ≤ j) (hj5 : j ≤ 5) :
    6 * k + j ≠ 6 * k' := by omega

theorem deriveAll_block (obs : ℝ → ℝ → List ℝ → ℝ × ℝ) (c : ℝ) (nlines k : ℕ)
    (st : (ℕ → ℝ) × (ℕ → ℝ)) (hk : k < nlines) :
    (deriveAll obs c nlines st).1 (6 * k) =
      Real.sqrt (2 * Real.pi) * st.1 (6 * k + 1) * (sigObsOf obs c st.1 st.2 k).1 ∧
    (deriveAll obs c nlines st).2 (6 * k) =
      2 * Real.pi * ((st.2 (6 * k + 1)) ^ 2 * (sigObsOf obs c st.1 st.2 k).1 +
        (sigObsOf obs c st.1 st.2 k).2 * (st.1 (6 * k + 1)) ^ 2) ∧
    ∀ j, 1 ≤ j → j ≤ 5 →
      (deriveAll obs c nlines st).1 (6 * k + j) = st.1 (6 * k + j) ∧
      (deriveAll obs c nlines st).2 (6 * k + j) = st.2 (6 * k + j) := by
  induction nlines with
  | zero => omega
  | succ n ih =>
    rw [deriveAll, List.range_succ, List.foldl_append]
    by_cases hkn : k < n
    · -- the final step writes block n ≠ block k; everything comes from the prefix
      have hne : ∀ j, j ≤ 5 → 6 * k + j ≠ 6 * n := by intro j hj; omega
      have prev := ih hkn
      rw [deriveAll] at prev
      constructor
      · show (deriveStep obs c ((List.range n).foldl (deriveStep obs c) st) n).1 (6 * k) = _
        simp only [deriveStep, if_neg (by omega : ¬ 6 * k = 6 * n)]
        exact prev.1
      constructor
      · show (deriveStep obs c ((List.range n).foldl (deriveStep obs c) st) n).2 (6 * k) = _
        simp only [deriveStep, if_neg (by omega : ¬ 6 * k = 6 * n)]
        exact prev.2.1
      · intro j hj1 hj5
        have hne' : ¬ 6 * k + j = 6 * n := by omega
        constructor
        · show (deriveStep obs c ((List.range n).foldl (deriveStep obs c) st) n).1
              (6 * k + j) = _
          simp only [deriveStep, if_neg hne']
          exact (prev.2.2 j hj1 hj5).1
        · show (deriveStep obs c ((List.range n).foldl (deriveStep obs c) st) n).2
              (6 * k + j) = _
          simp only [deriveStep, if_neg hne']
          exact (prev.2.2 j hj1 hj5).2
    · -- k = n: the final step writes block k, reading slots untouched by the prefix
      have hkeq : k = n := by omega
      subst hkeq
      have huntouched : ∀ j, j ≤ 5 →
          ((List.range k).foldl (deriveStep obs c) st).1 (6 * k + j) = st.1 (6 * k + j) ∧
          ((List.range k).foldl (deriveStep obs c) st).2 (6 * k + j) = st.2 (6 * k + j) := by
        intro j hj
        apply deriveFold_untouched
        intro k' hk'
        rw [List.mem_range] at hk'
        omega
      set stp := (List.range k).foldl (deriveStep obs c) st with hstp
      have h0 : stp.1 (6 * k) = st.1 (6 * k) := (huntouched 0 (by omega)).1
      have h1 : stp.1 (6 * k + 1) = st.1 (6 * k + 1) := (huntouched 1 (by omega)).1
      have h2 : stp.1 (6 * k + 2) = st.1 (6 * k + 2) := (huntouched 2 (by omega)).1
      have h3 : stp.1 (6 * k + 3) = st.1 (6 * k + 3) := (huntouched 3 (by omega)).1
      have e1 : stp.2 (6 * k + 1) = st.2 (6 * k + 1) := (huntouched 1 (by omega)).2
      have e2 : stp.2 (6 * k + 2) = st.2 (6 * k + 2) := (huntouched 2 (by omega)).2
      have hsig : sigObsOf obs c stp.1 stp.2 k = sigObsOf obs c st.1 st.2 k := by
        rw [sigObsOf, sigObsOf, zlamOf, zlamOf, zlamErrOf, zlamErrOf, h0, h2, h3, e2]
      constructor
      · show (deriveStep obs c stp k).1 (6 * k) = _
        simp only [deriveStep]
        rw [if_pos trivial, hsig, h1]
      constructor
      · show (deriveStep obs c stp k).2 (6 * k) = _
        simp only [deriveStep]
        rw [if_pos trivial, hsig, h1, e1]
      · intro j hj1 hj5
        have hne' : ¬ 6 * k + j = 6 * k := by omega
        constructor
        · show (deriveStep obs c stp k).1 (6 * k + j) = _
          simp only [deriveStep, if_neg hne']
          exact (huntouched j hj5).1
        · show (deriveStep obs c stp k).2 (6 * k + j) = _
          simp only [deriveStep, if_neg hne']
          exact (huntouched j hj5).2

/-- C4: after the derivation loop, the first parameter slot of line block `k`
holds exactly `sqrt(2*pi) * amplitude * sigma_observed` (amplitude read from
slot `6k+1`, sigma from the opaque `obs_sigma` collaborator on the original
block values), and the remaining five parameter slots of that block are
unchanged. -/
theorem line_flux_derivation (obs : ℝ → ℝ → List ℝ → ℝ × ℝ) (c : ℝ) (nlines k : ℕ)
    (st : (ℕ → ℝ) × (ℕ → ℝ)) (hk : k < nlines) :
    (deriveAll obs c nlines st).1 (6 * k) =
      Real.sqrt (2 * Real.pi) * st.1 (6 * k + 1) * (sigObsOf obs c st.1 st.2 k).1 ∧
    ∀ j, 1 ≤ j → j ≤ 5 →
      (deriveAll obs c nlines st).1 (6 * k + j) = st.1 (6 * k + j) := by
  have h := deriveAll_block obs c nlines k st hk
  exact ⟨h.1, fun j hj1 hj5 => (h.2.2 j hj1 hj5).1⟩

theorem line_flux_derivation_w :
    (0 : ℕ) < 1 ∧
    (deriveAll (fun _ _ _ => ((2 : ℝ), 0)) 1 1
        (fun x => if x = 1 then (10 : ℝ) else 0, fun _ => (0 : ℝ))).1 0 =
      Real.sqrt (2 * Real.pi) * 10 * 2 := by
  refine ⟨by decide, ?_⟩
  have h := (line_flux_derivation (fun _ _ _ => ((2 : ℝ), 0)) 1 1 0
    (fun x => if x = 1 then (10 : ℝ) else 0, fun _ => (0 : ℝ)) (by decide)).1
  simpa [sigObsOf] using h

/-- The flux-error expression the C5 claim asserts: the amplitude's stored
variance (error-cube slot `6k+1`) taken linearly, not squared. -/
noncomputable def claimedFluxErr (obs : ℝ → ℝ → List ℝ → ℝ × ℝ) (c : ℝ)
    (st : (ℕ → ℝ) × (ℕ → ℝ)) (k : ℕ) : ℝ :=
  2 * Real.pi * (st.2 (6 * k + 1) * (sigObsOf obs c st.1 st.2 k).1 +
    (sigObsOf obs c st.1 st.2 k).2 * (st.1 (6 * k + 1)) ^ 2)

/-- C5 fails on the code: with the stored amplitude variance 2, observed
sigma 3, sigma variance 0 and amplitude 0, the code stores
`2*pi*(2^2*3) = 24*pi` in the flux-error slot, while the claim's formula
gives `2*pi*(2*3) = 12*pi`. -/
theorem flux_error_claim_cex :
    (deriveAll (fun _ _ _ => ((3 : ℝ), 0)) 1 1
        (fun _ => (0 : ℝ), fun x => if x = 1 then (2 : ℝ) else 0)).2 0 ≠
      claimedFluxErr (fun _ _ _ => ((3 : ℝ), 0)) 1
        (fun _ => (0 : ℝ), fun x => if x = 1 then (2 : ℝ) else 0) 0 := by
  have h := (deriveAll_block (fun _ _ _ => ((3 : ℝ), 0)) 1 1 0
    (fun _ => (0 : ℝ), fun x => if x = 1 then (2 : ℝ) else 0) (by decide)).2.1
  rw [show (6 * 0 : ℕ) = 0 from rfl] at h
  rw [h]
  unfold claimedFluxErr sigObsOf
  norm_num
  intro heq
  exact Real.pi_ne_zero heq

/-- C5 amended: the flux-error slot `6k` equals `2*pi` times the sum of the
SQUARE of the stored amplitude variance (error slot `6k+1`, itself already
the squared mpfit error) scaled by the observed sigma, and the observed
sigma's variance scaled by the amplitude squared. -/
theorem flux_error_formula (obs : ℝ → ℝ → List ℝ → ℝ × ℝ) (c : ℝ) (nlines k : ℕ)
    (st : (ℕ → ℝ) × (ℕ → ℝ)) (hk : k < nlines) :
    (deriveAll obs c nlines st).2 (6 * k) =
      2 * Real.pi * ((st.2 (6 * k + 1)) ^ 2 * (sigObsOf obs c st.1 st.2 k).1 +
        (sigObsOf obs c st.1 st.2 k).2 * (st.1 (6 * k + 1)) ^ 2) :=
  (deriveAll_block obs c nlines k st hk).2.1

theorem flux_error_formula_w :
    (0 : ℕ) < 1 ∧
    (deriveAll (fun _ _ _ => ((3 : ℝ), 0)) 1 1
        (fun _ => (0 : ℝ), fun x => if x = 1 then (2 : ℝ) else 0)).2 0 =
      2 * Real.pi *
        (((fun x => if x = 1 then (2 : ℝ) else 0) (6 * 0 + 1)) ^ 2 *
            (sigObsOf (fun _ _ _ => ((3 : ℝ), 0)) 1 (fun _ => (0 : ℝ))
              (fun x => if x = 1 then (2 : ℝ) else 0) 0).1 +
          (sigObsOf (fun _ _ _ => ((3 : ℝ), 0)) 1 (fun _ => (0 : ℝ))
              (fun x => if x = 1 then (2 : ℝ) else 0) 0).2 *
            ((fun _ => (0 : ℝ)) (6 * 0 + 1)) ^ 2) :=
  ⟨by decide,
    flux_error_formula (fun _ _ _ => ((3 : ℝ), 0)) 1 1 0
      (fun _ => (0 : ℝ), fun x => if x = 1 then (2 : ℝ) else 0) (by decide)⟩

/-! ### Emission-line stage continuum subtraction
(`run_fit_elines`, lines 382-401)

For each entry `key -> source` of `params['which_cont_sub']` the source
parses `llim = int(key.split('->')[0])` and
`ulim = np.nanmax(snr_cont)+1` when the upper bound is written `max`, else
`int(key.split('->')[1])`, then subtracts the selected continuum cube from
`data` on the spaxels with `snr_cont >= llim` and `snr_cont < ulim` (IEEE
comparisons, so NaN SNR spaxels never match).  The error cube is never
touched.  The `lowess` branch subtracts `cont_lowess`; the `ppxf` branch
(line 401) references the name `cont_ppfx`, which is never bound anywhere in
the file -- the loaded variable is `cont_ppxf` (line 375) -- so executing it
raises a Python `NameError` before any subtraction happens.  That branch is
embedded as an error value. -/

inductive ContSource where
  | lowess : ContSource
  | ppxf : ContSource
  deriving DecidableEq

/-- The Python exceptions this fragment can raise; `nameError` models the
`NameError` raised by evaluating the unbound name `cont_ppfx`. -/
inductive PyExc where
  | nameError : PyExc
  deriving DecidableEq

/-- One SNR bracket `low->high`; `high = none` encodes the literal `max`. -/
structure SnrBracket where
  low : ℤ
  high : Option ℤ
  deriving DecidableEq

/-- `np.nanmax` over the continuum SNR map: the maximum over non-NaN values,
NaN (`none`) when every value is NaN. -/
def nanmaxSnr {σ : Type} (spaxels : List σ) (snr : σ → Option ℚ) : Option ℚ :=
  spaxels.foldl
    (fun acc p =>
      match acc, snr p with
      | some m, some v => some (max m v)
      | none, some v => some v
      | acc, none => acc)
    none

/-- Membership of a spaxel's continuum SNR in `[llim, ulim)`, with NaN
comparing false on either side. -/
def inBracket (snrv : Option ℚ) (llim : ℤ) (ulim : Option ℚ) : Bool :=
  match snrv, ulim with
  | some v, some u => decide ((llim : ℚ) ≤ v) && decide (v < u)
  | _, _ => false

/-- One subtraction pass of the `which_cont_sub` loop.  `contPpxf` is the
cube loaded into `cont_ppxf`; the source's `ppxf` branch reads the unbound
name `cont_ppfx` instead, so it raises `NameError` without using it. -/
def contSubStep {σ : Type} (spaxels : List σ) (snr : σ → Option ℚ)
    (contLowess contPpxf : σ → ℕ → Option ℚ) (d : σ → ℕ → Option ℚ)
    (entry : SnrBracket × ContSource) : Except PyExc (σ → ℕ → Option ℚ) :=
  let llim := entry.1.low
  let ulim : Option ℚ :=
    match entry.1.high with
    | some h => some (h : ℚ)
    | none => (nanmaxSnr spaxels snr).map (fun m => m + 1)
  match entry.2 with
  | ContSource.lowess =>
    Except.ok (fun p s =>
      if inBracket (snr p) llim ulim then oSub (d p s) (contLowess p s) else d p s)
  | ContSource.ppxf => Except.error PyExc.nameError

/-- The whole continuum-subtraction loop over the bracket table. -/
def contSub {σ : Type} (spaxels : List σ) (snr : σ → Option ℚ)
    (contLowess contPpxf : σ → ℕ → Option ℚ)
    (table : List (SnrBracket × ContSource)) (d : σ → ℕ → Option ℚ) :
    Except PyExc (σ → ℕ → Option ℚ) :=
  table.foldlM (contSubStep spaxels snr contLowess contPpxf) d

/-- C7 fails on the code: a bracket table entry selecting the `ppxf`
continuum makes the stage raise `NameError` (the branch reads the unbound
name `cont_ppfx`, not the loaded `cont_ppxf`), so the promised subtraction
never happens; a `lowess` entry, by contrast, does subtract the lowess cube
sample-by-sample on its bracket exactly as claimed. -/
theorem ppxf_subtraction_name_bug :
    contSub [()] (fun _ => some 5) (fun _ _ => some 2) (fun _ _ => some 3)
        [(⟨0, none⟩, ContSource.ppxf)] (fun _ _ => some 7) =
      Except.error PyExc.nameError ∧
    contSub [()] (fun _ => some 5) (fun _ _ => some 2) (fun _ _ => some 3)
        [(⟨0, none⟩, ContSource.lowess)] (fun _ _ => some 7) =
      Except.ok (fun p s =>
        if inBracket ((fun _ => some (5 : ℚ)) p) 0
            ((nanmaxSnr [()] (fun _ => some 5)).map (fun m => m + 1)) then
          oSub ((fun _ _ => some (7 : ℚ)) p s) ((fun _ _ => some (2 : ℚ)) p s)
        else (fun _ _ => some (7 : ℚ)) p s) := by
  constructor
  · rfl
  · rfl

/-! ### Greedy aperture assignment and integrated-spectrum cube
(`run_make_ap_cube`, lines 891-938)

A spaxel is a pixel `(y, x) : ℤ × ℤ` of the `mgrid` grid, embedded as the
list `grid` of its pixels.  The source computes the peak value of each
aperture at its centre (`fs = flux[ys,xs]`), takes
`sort_index = np.argsort(fs)[::-1]`, and iterates `enumerate(sort_index)`:
the rank `i` is assigned (`ap_map[in_ap * np.isnan(ap_map)] = i`) to the
not-yet-assigned spaxels of the disk of aperture `sort_index[i]`, after
which the nansum of the raw data and error spectra over `ap_map == i` is
written into every member spaxel of the output cubes.  `np.argsort`
ascending is embedded as an insertion sort under the linear order (value,
then index); numpy leaves the relative order of exact ties unspecified
(its default sort is not stable), so the theorems below only use that the
processing order is weakly descending in the peak value. -/

/-- A spaxel position `(y, x)`. -/
abbrev Pix : Type := ℤ × ℤ

structure Aperture where
  x : ℤ
  y : ℤ
  r : ℚ
  deriving DecidableEq

/-- Disk membership of one spaxel:
`(indices[1]-x)**2 + (indices[0]-y)**2 <= r**2`. -/
def inAp (a : Aperture) (p : Pix) : Bool :=
  decide ((((p.2 - a.x) ^ 2 + (p.1 - a.y) ^ 2 : ℤ) : ℚ) ≤ a.r ^ 2)

/-- Disk membership through an aperture's index in the input list. -/
def covB (aps : List Aperture) (ind : ℕ) (p : Pix) : Bool :=
  match aps[ind]? with
  | some a => inAp a p
  | none => false

/-- `fs[i]`: the peak reference-map value of aperture `i` at its centre
(`fs = flux[ys, xs]`). -/
def fsv (flux : Pix → ℚ) (aps : List Aperture) (i : ℕ) : ℚ :=
  (aps.map (fun a => flux (a.y, a.x))).getD i 0

/-- The ascending argsort order on aperture indices: by peak value, ties by
index. -/
def apLe (flux : Pix → ℚ) (aps : List Aperture) : ℕ → ℕ → Prop :=
  fun i j => fsv flux aps i < fsv flux aps j ∨ (fsv flux aps i = fsv flux aps j ∧ i ≤ j)

instance apLeDec (flux : Pix → ℚ) (aps : List Aperture) : DecidableRel (apLe flux aps) :=
  fun i j => by unfold apLe; infer_instance

instance apLeTotal (flux : Pix → ℚ) (aps : List Aperture) : IsTotal ℕ (apLe flux aps) := by
  constructor
  intro i j
  unfold apLe
  rcases lt_trichotomy (fsv flux aps i) (fsv flux aps j) with h | h | h
  · exact Or.inl (Or.inl h)
  · rcases Nat.le_total i j with hij | hij
    · exact Or.inl (Or.inr ⟨h, hij⟩)
    · exact Or.inr (Or.inr ⟨h.symm, hij⟩)
  · exact Or.inr (Or.inl h)

instance apLeTrans (flux : Pix → ℚ) (aps : List Aperture) : IsTrans ℕ (apLe flux aps) := by
  constructor
  intro a b c hab hbc
  unfold apLe at *
  rcases hab with h1 | h1 <;> rcases hbc with h2 | h2
  · exact Or.inl (h1.trans h2)
  · exact Or.inl (by rw [← h2.1]; exact h1)
  · exact Or.inl (by rw [h1.1]; exact h2)
  · exact Or.inr ⟨h1.1.trans h2.1, h1.2.trans h2.2⟩

/-- `sort_index = np.argsort(fs)[::-1]`: aperture indices in descending
order of peak value. -/
def apOrder (flux : Pix → ℚ) (aps : List Aperture) : List ℕ :=
  (List.insertionSort (apLe flux aps) (List.range aps.length)).reverse

/-- State threaded through the aperture loop: the assignment map `ap_map`
and the two output cubes `ap_spec_cube`, `ap_spec_err` (all initialised to
NaN). -/
structure ApState where
  map : Pix → Option ℕ
  spec : Pix → ℕ → Option ℚ
  errS : Pix → ℕ → Option ℚ

/-- `np.nansum` of a cube over the member spaxels `{q : m q = i}` of the
grid at one wavelength sample: NaN samples contribute zero. -/
def apSum (grid : List Pix) (cube : Pix → ℕ → Option ℚ) (m : Pix → Option ℕ)
    (i : ℕ) (s : ℕ) : ℚ :=
  ((grid.filter (fun q => decide (m q = some i))).map (fun q => (cube q s).getD 0)).sum

/-- One iteration of the aperture loop, at rank `i` with aperture index
`ind`: claim the still-unassigned spaxels of the disk, then overwrite every
member spaxel's output spectrum and error spectrum with the integrated
(nansum) pair of the membership just fixed. -/
def apStep (grid : List Pix) (aps : List Aperture) (data errc : Pix → ℕ → Option ℚ)
    (st : ApState) (i ind : ℕ) : ApState :=
  let m : Pix → Option ℕ := fun p =>
    if covB aps ind p = true ∧ st.map p = none ∧ p ∈ grid then some i else st.map p
  { map := m
    spec := fun p =>
      if p ∈ grid ∧ m p = some i then fun s => some (apSum grid data m i s) else st.spec p
    errS := fun p =>
      if p ∈ grid ∧ m p = some i then fun s => some (apSum grid errc m i s) else st.errS p }

/-- The loop `for (i, ind) in enumerate(sort_index)`. -/
def apLoop (grid : List Pix) (aps : List Aperture) (data errc : Pix → ℕ → Option ℚ) :
    List ℕ → ℕ → ApState → ApState
  | [], _, st => st
  | ind :: rest, i, st =>
    apLoop grid aps data errc rest (i + 1) (apStep grid aps data errc st i ind)

/-- `ap_map`, `ap_spec_cube` and `ap_spec_err` start as all-NaN arrays. -/
def initApState : ApState :=
  ⟨fun _ => none, fun _ _ => none, fun _ _ => none⟩

/-- The whole of `run_make_ap_cube`'s assignment-and-integration phase. -/
def apRun (grid : List Pix) (aps : List Aperture) (flux : Pix → ℚ)
    (data errc : Pix → ℕ → Option ℚ) : ApState :=
  apLoop grid aps data errc (apOrder flux aps) 0 initApState

/-- The assignment-map component of the loop on its own. -/
def mapAssign (grid : List Pix) (aps : List Aperture) :
    List ℕ → ℕ → (Pix → Option ℕ) → Pix → Option ℕ
  | [], _, m => m
  | ind :: rest, i, m =>
    mapAssign grid aps rest (i + 1)
      (fun p => if covB aps ind p = true ∧ m p = none ∧ p ∈ grid then some i else m p)

theorem apLoop_map (grid : List Pix) (aps : List Aperture)
    (data errc : Pix → ℕ → Option ℚ) (l : List ℕ) (i : ℕ) (st : ApState) :
    (apLoop grid aps data errc l i st).map = mapAssign grid aps l i st.map := by
  induction l generalizing i st with
  | nil => rfl
  | cons ind rest ih =>
    show (apLoop grid aps data errc rest (i + 1) (apStep grid aps data errc st i ind)).map = _
    rw [ih]
    rfl

/-- A spaxel already holding an id keeps it: the invariant that a spaxel,
once assigned, is never reassigned. -/
theorem mapAssign_keeps (grid : List Pix) (aps : List Aperture) (l : List ℕ)
    (i : ℕ) (m : Pix → Option ℕ) (q : Pix) (v : ℕ) (h : m q = some v) :
    mapAssign grid aps l i m q = some v := by
  induction l generalizing i m with
  | nil => exact h
  | cons ind rest ih =>
    apply ih
    have hcond : ¬ (covB aps ind q = true ∧ m q = none ∧ q ∈ grid) := by
      rintro ⟨-, hnone, -⟩
      rw [h] at hnone
      exact Option.noConfusion hnone
    show (if covB aps ind q = true ∧ m q = none ∧ q ∈ grid then some i else m q) = some v
    rw [if_neg hcond]
    exact h

theorem mapAssign_first_cover (grid : List Pix) (aps : List Aperture) (f : ℕ → ℚ)
    (l : List ℕ) (i₀ : ℕ) (m : Pix → Option ℕ) (p : Pix)
    (hdesc : l.Pairwise (fun a b => f b ≤ f a))
    (hg : p ∈ grid) (hm : m p = none) (hcov : ∃ ind ∈ l, covB aps ind p = true) :
    ∃ j ind, mapAssign grid aps l i₀ m p = some (i₀ + j) ∧ l[j]? = some ind ∧
      covB aps ind p = true ∧
      ∀ ind2 ∈ l, covB aps ind2 p = true → f ind2 ≤ f ind := by
  induction l generalizing i₀ m with
  | nil =>
    obtain ⟨ind, hmem, -⟩ := hcov
    exact absurd hmem (List.not_mem_nil ind)
  | cons a rest ih =>
    rw [List.pairwise_cons] at hdesc
    by_cases hca : covB aps a p = true
    · refine ⟨0, a, ?_, by simp, hca, ?_⟩
      · have hupd :
            (fun q => if covB aps a q = true ∧ m q = none ∧ q ∈ grid then some i₀ else m q) p
              = some i₀ := by
          show (if covB aps a p = true ∧ m p = none ∧ p ∈ grid then some i₀ else m p) = some i₀
          rw [if_pos ⟨hca, hm, hg⟩]
        show mapAssign grid aps rest (i₀ + 1)
            (fun q => if covB aps a q = true ∧ m q = none ∧ q ∈ grid then some i₀ else m q)
            p = some (i₀ + 0)
        rw [show i₀ + 0 = i₀ from rfl]
        exact mapAssign_keeps grid aps rest (i₀ + 1) _ p i₀ hupd
      · intro ind2 hmem hc2
        rcases List.mem_cons.mp hmem with rfl | hmem'
        · exact le_refl _
        · exact hdesc.1 ind2 hmem'
    · have hm' :
          (fun q => if covB aps a q = true ∧ m q = none ∧ q ∈ grid then some i₀ else m q) p
            = none := by
        show (if covB aps a p = true ∧ m p = none ∧ p ∈ grid then some i₀ else m p) = none
        rw [if_neg]
        · exact hm
        · rintro ⟨hc, -, -⟩
          exact hca hc
      have hcov' : ∃ ind ∈ rest, covB aps ind p = true := by
        obtain ⟨ind, hmem, hc⟩ := hcov
        rcases List.mem_cons.mp hmem with rfl | hmem'
        · exact absurd hc hca
        · exact ⟨ind, hmem', hc⟩
      obtain ⟨j, ind, h1, h2, h3, h4⟩ :=
        ih (i₀ + 1)
          (fun q => if covB aps a q = true ∧ m q = none ∧ q ∈ grid then some i₀ else m q)
          hdesc.2 hm' hcov'
      refine ⟨j + 1, ind, ?_, ?_, h3, ?_⟩
      · show mapAssign grid aps rest (i₀ + 1) _ p = some (i₀ + (j + 1))
        rw [h1]
        congr 1
        omega
      · simpa using h2
      · intro ind2 hmem hc2
        rcases List.mem_cons.mp hmem with rfl | hmem'
        · exact absurd hc2 hca
        · exact h4 ind2 hmem' hc2

theorem apOrder_desc (flux : Pix → ℚ) (aps : List Aperture) :
    (apOrder flux aps).Pairwise
      (fun a b => fsv flux aps b ≤ fsv flux aps a) := by
  rw [apOrder, List.pairwise_reverse]
  have hs := List.sorted_insertionSort (apLe flux aps) (List.range aps.length)
  refine hs.imp ?_
  intro a b hab
  rcases hab with h | h
  · exact le_of_lt h
  · exact le_of_eq h.1

theorem mem_apOrder (flux : Pix → ℚ) (aps : List Aperture) (ind : ℕ)
    (h : ind < aps.length) : ind ∈ apOrder flux aps := by
  rw [apOrder, List.mem_reverse]
  rw [(List.perm_insertionSort (apLe flux aps) (List.range aps.length)).mem_iff]
  exact List.mem_range.mpr h

/-- C1 amended: a spaxel covered by at least one aperture disk records the
processing RANK (position in the weakly descending peak-value order) of a
covering aperture whose peak reference value is at least that of every
aperture covering the spaxel; the processing order is descending in the
peak value; and a spaxel once assigned is never reassigned. -/
theorem aperture_priority_rank (grid : List Pix) (aps : List Aperture)
    (flux : Pix → ℚ) (data errc : Pix → ℕ → Option ℚ) (p : Pix) (hg : p ∈ grid)
    (hcov : ∃ ind, ind < aps.length ∧ covB aps ind p = true) :
    (∃ j ind, (apRun grid aps flux data errc).map p = some j ∧
       (apOrder flux aps)[j]? = some ind ∧ covB aps ind p = true ∧
       ∀ ind2, ind2 < aps.length → covB aps ind2 p = true →
         fsv flux aps ind2 ≤ fsv flux aps ind) ∧
    (apOrder flux aps).Pairwise (fun a b => fsv flux aps b ≤ fsv flux aps a) ∧
    (∀ (l : List ℕ) (i : ℕ) (m : Pix → Option ℕ) (q : Pix) (v : ℕ),
      m q = some v → mapAssign grid aps l i m q = some v) := by
  refine ⟨?_, apOrder_desc flux aps, mapAssign_keeps grid aps⟩
  have hproj : (apRun grid aps flux data errc).map =
      mapAssign grid aps (apOrder flux aps) 0 (fun _ => none) :=
    apLoop_map grid aps data errc (apOrder flux aps) 0 initApState
  have hcov' : ∃ ind ∈ apOrder flux aps, covB aps ind p = true := by
    obtain ⟨ind, hlen, hc⟩ := hcov
    exact ⟨ind, mem_apOrder flux aps ind hlen, hc⟩
  obtain ⟨j, ind, h1, h2, h3, h4⟩ :=
    mapAssign_first_cover grid aps (fsv flux aps) (apOrder flux aps) 0
      (fun _ => none) p (apOrder_desc flux aps) hg rfl hcov'
  refine ⟨j, ind, ?_, h2, h3, ?_⟩
  · rw [hproj, h1]
    congr 1
    omega
  · intro ind2 hlen hc2
    exact h4 ind2 (mem_apOrder flux aps ind2 hlen) hc2

/-- The 5x5 grid of the C1 counterexample. -/
def gridCex : List Pix :=
  (List.range 5).flatMap (fun y => (List.range 5).map (fun x => ((y : ℤ), (x : ℤ))))

/-- Three apertures with peak fluxes `[5, 20, 10]` at input indices
`[0, 1, 2]` (the scenario of the specification's own example). -/
def apsCex : List Aperture := [⟨4, 4, 0⟩, ⟨0, 0, 1⟩, ⟨2, 0, 1⟩]

def fluxCex : Pix → ℚ := fun p =>
  if p = ((0 : ℤ), (0 : ℤ)) then 20
  else if p = ((0 : ℤ), (2 : ℤ)) then 10
  else if p = ((4 : ℤ), (4 : ℤ)) then 5 else 0

/-- C1 fails as stated: the spaxel `(y,x) = (0,1)` lies in the disks of
apertures 1 (peak 20) and 2 (peak 10) only, so the claim says it records id
1, the input index of the highest-peak covering aperture; the code instead
records 0, that aperture's processing rank (`ap_map[...] = i` stores the
`enumerate(sort_index)` counter, not `sort_index[i]`). -/
theorem aperture_priority_id_cex :
    covB apsCex 1 ((0 : ℤ), (1 : ℤ)) = true ∧
    (∀ ind2, ind2 < apsCex.length → covB apsCex ind2 ((0 : ℤ), (1 : ℤ)) = true →
      fsv fluxCex apsCex ind2 ≤ fsv fluxCex apsCex 1) ∧
    (apRun gridCex apsCex fluxCex (fun _ _ => some 1) (fun _ _ => some 1)).map
        ((0 : ℤ), (1 : ℤ)) = some 0 ∧
    (apRun gridCex apsCex fluxCex (fun _ _ => some 1) (fun _ _ => some 1)).map
        ((0 : ℤ), (1 : ℤ)) ≠ some 1 := by
  have hmap : (apRun gridCex apsCex fluxCex (fun _ _ => some 1) (fun _ _ => some 1)).map
      = mapAssign gridCex apsCex (apOrder fluxCex apsCex) 0 (fun _ => none) :=
    apLoop_map gridCex apsCex (fun _ _ => some 1) (fun _ _ => some 1)
      (apOrder fluxCex apsCex) 0 initApState
  refine ⟨by decide, by decide, ?_, ?_⟩
  · rw [hmap]
    decide
  · rw [hmap]
    decide

theorem aperture_priority_rank_w :
    ((0 : ℤ), (1 : ℤ)) ∈ gridCex ∧
    (∃ j ind,
      (apRun gridCex apsCex fluxCex (fun _ _ => some 1) (fun _ _ => some 1)).map
          ((0 : ℤ), (1 : ℤ)) = some j ∧
      (apOrder fluxCex apsCex)[j]? = some ind ∧
      covB apsCex ind ((0 : ℤ), (1 : ℤ)) = true ∧
      ∀ ind2, ind2 < apsCex.length → covB apsCex ind2 ((0 : ℤ), (1 : ℤ)) = true →
        fsv fluxCex apsCex ind2 ≤ fsv fluxCex apsCex ind) :=
  ⟨by decide,
    (aperture_priority_rank gridCex apsCex fluxCex (fun _ _ => some 1)
      (fun _ _ => some 1) ((0 : ℤ), (1 : ℤ)) (by decide) ⟨1, by decide, by decide⟩).1⟩

/-- All ids held in an assignment map are below a bound; the loop counter
maintains this, which makes the rank ids of distinct iterations distinct. -/
def IdsBelow (m : Pix → Option ℕ) (b : ℕ) : Prop :=
  ∀ p j, m p = some j → j < b

theorem apStep_map_cases (grid : List Pix) (aps : List Aperture)
    (data errc : Pix → ℕ → Option ℚ) (st : ApState) (i ind : ℕ) (q : Pix) (j : ℕ) :
    ((apStep grid aps data errc st i ind).map q = some j ↔
      (st.map q = some j ∨
        (j = i ∧ covB aps ind q = true ∧ st.map q = none ∧ q ∈ grid))) := by
  show (if covB aps ind q = true ∧ st.map q = none ∧ q ∈ grid then some i else st.map q)
      = some j ↔ _
  by_cases hc : covB aps ind q = true ∧ st.map q = none ∧ q ∈ grid
  · rw [if_pos hc]
    constructor
    · intro h
      exact Or.inr ⟨(Option.some.injEq _ _ ▸ h).symm, hc⟩
    · rintro (h | ⟨rfl, -⟩)
      · rw [hc.2.1] at h
        exact Option.noConfusion h
      · rfl
  · rw [if_neg hc]
    constructor
    · intro h
      exact Or.inl h
    · rintro (h | ⟨-, hc'⟩)
      · exact h
      · exact absurd hc' hc

theorem apStep_map_old (grid : List Pix) (aps : List Aperture)
    (data errc : Pix → ℕ → Option ℚ) (st : ApState) (i ind : ℕ) (q : Pix) (j : ℕ)
    (hne : j ≠ i) :
    ((apStep grid aps data errc st i ind).map q = some j ↔ st.map q = some j) := by
  rw [apStep_map_cases]
  constructor
  · rintro (h | ⟨rfl, -⟩)
    · exact h
    · exact absurd rfl hne
  · exact Or.inl

/-- Member sets of an id `j` strictly below the running counter never change
again: an aperture's membership is final once its iteration has run. -/
theorem apLoop_map_old (grid : List Pix) (aps : List Aperture)
    (data errc : Pix → ℕ → Option ℚ) (l : List ℕ) (i : ℕ) (st : ApState) (j : ℕ)
    (hj : j < i) (q : Pix) :
    ((apLoop grid aps data errc l i st).map q = some j ↔ st.map q = some j) := by
  induction l generalizing i st with
  | nil => exact Iff.rfl
  | cons ind rest ih =>
    show ((apLoop grid aps data errc rest (i + 1) (apStep grid aps data errc st i ind)).map q
        = some j ↔ _)
    rw [ih (i + 1) _ (by omega)]
    exact apStep_map_old grid aps data errc st i ind q j (by omega)

theorem apSum_congr (grid : List Pix) (cube : Pix → ℕ → Option ℚ)
    (m m' : Pix → Option ℕ) (j : ℕ)
    (h : ∀ q ∈ grid, m' q = some j ↔ m q = some j) (s : ℕ) :
    apSum grid cube m' j s = apSum grid cube m j s := by
  unfold apSum
  congr 1
  apply congrArg
  apply List.filter_congr
  intro q hq
  exact decide_eq_decide.mpr (h q hq)

/-- The coherence invariant carried through the aperture loop: every
assigned spaxel's output spectrum and error spectrum are the integrated
(nansum over its aperture's members) pair. -/
theorem apLoop_coherent (grid : List Pix) (aps : List Aperture)
    (data errc : Pix → ℕ → Option ℚ) (l : List ℕ) (i : ℕ) (st : ApState)
    (hb : IdsBelow st.map i)
    (hco : ∀ p j, p ∈ grid → st.map p = some j →
      (∀ s, st.spec p s = some (apSum grid data st.map j s)) ∧
      (∀ s, st.errS p s = some (apSum grid errc st.map j s))) :
    ∀ p j, p ∈ grid → (apLoop grid aps data errc l i st).map p = some j →
      (∀ s, (apLoop grid aps data errc l i st).spec p s =
        some (apSum grid data (apLoop grid aps data errc l i st).map j s)) ∧
      (∀ s, (apLoop grid aps data errc l i st).errS p s =
        some (apSum grid errc (apLoop grid aps data errc l i st).map j s)) := by
  induction l generalizing i st with
  | nil => exact hco
  | cons ind rest ih =>
    show ∀ p j, p ∈ grid →
        (apLoop grid aps data errc rest (i + 1) (apStep grid aps data errc st i ind)).map p
          = some j → _
    apply ih (i + 1)
    · -- the counter bounds all ids of the stepped state
      intro p j hpj
      rcases (apStep_map_cases grid aps data errc st i ind p j).mp hpj with h | ⟨hji, -⟩
      · exact lt_trans (hb p j h) (Nat.lt_succ_self i)
      · omega
    · -- coherence of the stepped state
      intro p j hp hpj
      rcases (apStep_map_cases grid aps data errc st i ind p j).mp hpj with hold | hnew
      · -- a spaxel of an older aperture: nothing about it changed
        have hji : j ≠ i := by
          have := hb p j hold
          omega
        have hspec : (apStep grid aps data errc st i ind).spec p = st.spec p := by
          show (if p ∈ grid ∧ (apStep grid aps data errc st i ind).map p = some i
              then _ else st.spec p) = st.spec p
          rw [if_neg]
          rintro ⟨-, hmi⟩
          rw [hpj] at hmi
          exact hji (Option.some.injEq _ _ ▸ hmi)
        have herr : (apStep grid aps data errc st i ind).errS p = st.errS p := by
          show (if p ∈ grid ∧ (apStep grid aps data errc st i ind).map p = some i
              then _ else st.errS p) = st.errS p
          rw [if_neg]
          rintro ⟨-, hmi⟩
          rw [hpj] at hmi
          exact hji (Option.some.injEq _ _ ▸ hmi)
        have hmem : ∀ q ∈ grid,
            (apStep grid aps data errc st i ind).map q = some j ↔ st.map q = some j :=
          fun q _ => apStep_map_old grid aps data errc st i ind q j hji
        constructor
        · intro s
          rw [hspec, (hco p j hp hold).1 s,
            apSum_congr grid data st.map (apStep grid aps data errc st i ind).map j hmem s]
        · intro s
          rw [herr, (hco p j hp hold).2 s,
            apSum_congr grid errc st.map (apStep grid aps data errc st i ind).map j hmem s]
      · -- a spaxel newly claimed at rank i: the step itself wrote the sums
        obtain ⟨hji, hcv, hn, hg2⟩ := hnew
        have hpj2 : (apStep grid aps data errc st i ind).map p = some i := hji ▸ hpj
        constructor
        · intro s
          rw [hji]
          show (if p ∈ grid ∧ (apStep grid aps data errc st i ind).map p = some i
              then fun s => some (apSum grid data (apStep grid aps data errc st i ind).map i s)
              else st.spec p) s = _
          rw [if_pos ⟨hp, hpj2⟩]
        · intro s
          rw [hji]
          show (if p ∈ grid ∧ (apStep grid aps data errc st i ind).map p = some i
              then fun s => some (apSum grid errc (apStep grid aps data errc st i ind).map i s)
              else st.errS p) s = _
          rw [if_pos ⟨hp, hpj2⟩]

/-- C8: once the greedy assignment has fixed an aperture's membership, every
member spaxel's output spectrum is exactly the sample-wise nansum (NaN
contributes zero) of the member spaxels' raw data spectra, its output error
spectrum is the same linear nansum of the error spectra, and all members of
the aperture share this one integrated pair. -/
theorem aperture_integrated_spectra (grid : List Pix) (aps : List Aperture)
    (flux : Pix → ℚ) (data errc : Pix → ℕ → Option ℚ) (p : Pix) (i : ℕ)
    (hg : p ∈ grid) (hm : (apRun grid aps flux data errc).map p = some i) :
    (∀ s, (apRun grid aps flux data errc).spec p s =
      some (apSum grid data (apRun grid aps flux data errc).map i s)) ∧
    (∀ s, (apRun grid aps flux data errc).errS p s =
      some (apSum grid errc (apRun grid aps flux data errc).map i s)) := by
  refine apLoop_coherent grid aps data errc (apOrder flux aps) 0 initApState ?_ ?_ p i hg hm
  · intro q j hq
    exact Option.noConfusion hq
  · intro q j hq hqj
    exact Option.noConfusion hqj

/-- The one-spaxel, one-aperture world of the C8 witness. -/
def gridW : List Pix := [((0 : ℤ), (0 : ℤ))]

def apsW : List Aperture := [⟨0, 0, 1⟩]

theorem aperture_integrated_spectra_w :
    ((0 : ℤ), (0 : ℤ)) ∈ gridW ∧
    (apRun gridW apsW (fun _ => 0) (fun _ _ => some 2) (fun _ _ => some 3)).map
        ((0 : ℤ), (0 : ℤ)) = some 0 ∧
    (apRun gridW apsW (fun _ => 0) (fun _ _ => some 2) (fun _ _ => some 3)).spec
        ((0 : ℤ), (0 : ℤ)) 0 =
      some (apSum gridW (fun _ _ => some 2)
        (apRun gridW apsW (fun _ => 0) (fun _ _ => some 2) (fun _ _ => some 3)).map 0 0) := by
  have hproj : (apRun gridW apsW (fun _ => 0) (fun _ _ => some 2) (fun _ _ => some 3)).map
      = mapAssign gridW apsW (apOrder (fun _ => 0) apsW) 0 (fun _ => none) :=
    apLoop_map gridW apsW (fun _ _ => some 2) (fun _ _ => some 3)
      (apOrder (fun _ => 0) apsW) 0 initApState
  have hmap : (apRun gridW apsW (fun _ => 0) (fun _ _ => some 2) (fun _ _ => some 3)).map
      ((0 : ℤ), (0 : ℤ)) = some 0 := by
    rw [hproj]
    decide
  exact ⟨by decide, hmap,
    (aperture_integrated_spectra gridW apsW (fun _ => 0) (fun _ _ => some 2)
      (fun _ _ => some 3) ((0 : ℤ), (0 : ℤ)) 0 (by decide) hmap).1 0⟩

end Brian
